import Mathlib

/-!
Verification development for the `virtual-fs` repository (`src/index.js`).

The source implements an in-memory fake filesystem: a `VirtualEntries` tree
with an absolute-path index (`_entries`) and a files-only index (`_files`),
entry classes `Directory` and `File`, and a `Filesystem` mock exposing
`stat`/`readdir`/`realpath`/`readFile`/`writeFile` in synchronous and
callback-taking forms.

Modelling conventions:
- JavaScript dynamic values relevant to file contents are modelled by `JSVal`.
- JavaScript runtime failures (`assert.ok` failures and `TypeError` from
  calling a missing method) are modelled with `Except JsErr`.
- The two index objects are modelled as insertion-ordered association lists;
  property assignment (`m[k] = v`) is `mapSet`, membership (`k in m`) is
  `mapHas`.
- `path.resolve` (POSIX flavour, as used with an absolute first argument) is
  modelled by `resolvePath`: split on `/`, drop empty and `.` segments, let
  `..` pop, join absolute.
- Callback-taking operations run synchronously and pass a single value to the
  callback; each one is modelled as a function returning the value passed to
  its callback (or the error raised before the callback would run).
- Object aliasing between the tree and the indices is not modelled; the
  mutation performed by `writeFile`/`setContent` is applied to the `_entries`
  binding, which is the binding every operation under verification reads.
-/

/-- JavaScript values that can appear as a `File` content or argument:
`undefined`, `null`, booleans, (integer) numbers, strings and plain objects. -/
inductive JSVal where
  | undef : JSVal
  | nullv : JSVal
  | boolv : Bool → JSVal
  | numv : Int → JSVal
  | strv : String → JSVal
  | objv : List (String × JSVal) → JSVal

/-- JavaScript truthiness for `JSVal` (`undefined`, `null`, `false`, `0` and
the empty string are falsy). -/
def truthy : JSVal → Bool
  | .undef => false
  | .nullv => false
  | .boolv b => b
  | .numv n => n != 0
  | .strv s => s != ""
  | .objv _ => true

/-- The test `Object.prototype.toString.call(content) === '[object Object]'`
from `File._createContent`: true exactly for plain objects. -/
def isPlainObject : JSVal → Bool
  | .objv _ => true
  | _ => false

/-- One character of `JSON.stringify` string escaping. -/
def jsonEscapeChar (c : Char) : List Char :=
  if c = '"' then ['\\', '"']
  else if c = '\\' then ['\\', '\\']
  else if c = '\n' then ['\\', 'n']
  else if c = '\r' then ['\\', 'r']
  else if c = '\t' then ['\\', 't']
  else if c = '\x08' then ['\\', 'b']
  else if c = '\x0c' then ['\\', 'f']
  else if c.toNat < 32 then
    ['\\', 'u', '0', '0',
     (if c.toNat / 16 < 10 then Char.ofNat (48 + c.toNat / 16) else Char.ofNat (87 + c.toNat / 16)),
     (if c.toNat % 16 < 10 then Char.ofNat (48 + c.toNat % 16) else Char.ofNat (87 + c.toNat % 16))]
  else [c]

/-- `JSON.stringify` escaping of a string body. -/
def jsonEscape (s : String) : String :=
  ⟨(s.data.map jsonEscapeChar).flatten⟩

/-- Projection of a `JSVal` to the string it carries, if any (used to state
concrete disagreements without decidable equality on full values). -/
def JSVal.asString? : JSVal → Option String
  | .strv s => some s
  | _ => none

mutual
/-- Size measure for `JSVal` (termination of the serializer). -/
def jsvalSize : JSVal → Nat
  | .objv fs => 1 + jsfieldsSize fs
  | _ => 1

/-- Size measure for object field lists. -/
def jsfieldsSize : List (String × JSVal) → Nat
  | [] => 0
  | (_, v) :: rest => 1 + jsvalSize v + jsfieldsSize rest
end

mutual
/-- `JSON.stringify` of a `JSVal`; `none` models the JavaScript result
`undefined` (for `undefined` input), which makes an object field disappear. -/
def jsonValue : JSVal → Option String
  | .undef => none
  | .nullv => some "null"
  | .boolv b => some (if b then "true" else "false")
  | .numv n => some (toString n)
  | .strv s => some ("\"" ++ jsonEscape s ++ "\"")
  | .objv fs => some ("\x7b" ++ String.intercalate "," (jsonFields fs) ++ "\x7d")
termination_by v => 2 * jsvalSize v
decreasing_by all_goals (simp_wf; simp [jsvalSize, jsfieldsSize]; try omega)

/-- Serialized `"key":value` members of an object, omitting `undefined`. -/
def jsonFields : List (String × JSVal) → List String
  | [] => []
  | (k, v) :: rest =>
    (match jsonValue v with
     | some sv => ["\"" ++ jsonEscape k ++ "\":" ++ sv]
     | none => []) ++ jsonFields rest
termination_by fs => 2 * jsfieldsSize fs + 1
decreasing_by all_goals (simp_wf; simp [jsvalSize, jsfieldsSize]; try omega)
end

/-- `JSON.stringify` applied to a plain object with the given fields. -/
def jsonObjString (fs : List (String × JSVal)) : String :=
  "\x7b" ++ String.intercalate "," (jsonFields fs) ++ "\x7d"

/-- Entry nodes of the virtual tree.  `dir` and `file` are the `Directory`
and `File` classes.  `arrv` is a raw JavaScript `Array` value: `add` passes
an array (not spread arguments) to the variadic `Directory.addChild`, so the
array object itself ends up stored in the root's child list; `arrv` models
that stored array. -/
inductive Node where
  | dir : String → List Node → Node
  | file : String → JSVal → Node
  | arrv : List Node → Node

/-- `getName()`: defined on `Directory` and `File`; a raw array has no such
method, so calling it is a `TypeError` (`none`). -/
def Node.getName? : Node → Option String
  | .dir n _ => some n
  | .file n _ => some n
  | .arrv _ => none

/-- `isDirectory()`: `true` on `Directory`, `false` on `File` (the `Entry`
prototype default); a raw array has no such method (`none`). -/
def Node.isDirectory? : Node → Option Bool
  | .dir _ _ => some true
  | .file _ _ => some false
  | .arrv _ => none

/-- `isFile()`: `true` on `File`, `false` on `Directory`; a raw array has no
such method (`none`). -/
def Node.isFile? : Node → Option Bool
  | .dir _ _ => some false
  | .file _ _ => some true
  | .arrv _ => none

/-- `getEntries()`: the child list of a `Directory`; `File` and raw arrays
have no such method (`none`). -/
def Node.getEntries? : Node → Option (List Node)
  | .dir _ cs => some cs
  | _ => none

/-- `File.getContent()`: the stored content; only `File` has it. -/
def Node.getContent? : Node → Option JSVal
  | .file _ c => some c
  | _ => none

/-- `File.setContent(content)`: stores the argument raw (no coercion);
only `File` has this method. -/
def Node.setContent? : Node → JSVal → Option Node
  | .file n _, c => some (.file n c)
  | _, _ => none

/-- `Directory.addChild(...entries)`: appends the given argument list to the
child list and returns the directory; only `Directory` has this method. -/
def Node.addChild? : Node → List Node → Option Node
  | .dir n cs, args => some (.dir n (cs ++ args))
  | _, _ => none

/-- `File._createContent`: a plain object is serialized to JSON text, any
other truthy value is stored as passed, any falsy value (including an omitted
argument, i.e. `undefined`) becomes the empty string. -/
def File.createContent : JSVal → JSVal
  | .objv fs => .strv (jsonObjString fs)
  | c => if truthy c then c else .strv ""

/-- `module.exports.createFile(name, content)`: builds a `File`, coercing the
content once at construction. -/
def createFile (name : String) (content : JSVal) : Node :=
  Node.file name (File.createContent content)

/-- `module.exports.createDir(name, ...entries)`: builds a `Directory` with
the given initial children. -/
def createDir (name : String) (entries : List Node) : Node :=
  Node.dir name entries

mutual
/-- Size of a node (termination measure for the tree recursions). -/
def nodeSize : Node → Nat
  | .dir _ cs => 1 + nodeListSize cs
  | .file _ _ => 1
  | .arrv es => 1 + nodeListSize es

/-- Size of a node list. -/
def nodeListSize : List Node → Nat
  | [] => 0
  | e :: es => 1 + nodeSize e + nodeListSize es
end

/-- The string contains no backslash (so `replace(/\\/g, '/')` is the
identity on it). -/
def noBackslash (s : String) : Bool :=
  s.data.all (fun c => c != '\\')

mutual
/-- A node is a well-formed entry: built from `Directory`/`File` alone (no
raw array anywhere) with backslash-free names.  These are exactly the values
producible through `createDir`/`createFile` from backslash-free names. -/
def Node.goodEntry : Node → Bool
  | .dir n cs => noBackslash n && Node.goodList cs
  | .file n _ => noBackslash n
  | .arrv _ => false

/-- All nodes of a list are well-formed entries. -/
def Node.goodList : List Node → Bool
  | [] => true
  | c :: cs => Node.goodEntry c && Node.goodList cs
end

/-- Runtime failures: `assert.ok` failures (carrying their message) and
`TypeError` (calling a method that does not exist on the receiver). -/
inductive JsErr where
  | assertionError : String → JsErr
  | typeError : JsErr
deriving DecidableEq

/-- The `_entries` / `_files` objects: insertion-ordered string-keyed maps. -/
abbrev EMap := List (String × Node)

/-- Property lookup `m[k]`. -/
def mapGet : EMap → String → Option Node
  | [], _ => none
  | (q, v) :: rest, k => if q = k then some v else mapGet rest k

/-- Membership test `k in m`. -/
def mapHas (m : EMap) (k : String) : Bool :=
  (mapGet m k).isSome

/-- Property assignment `m[k] = v`: replaces the binding if the key is
present, otherwise appends it. -/
def mapSet : EMap → String → Node → EMap
  | [], k, v => [(k, v)]
  | (q, w) :: rest, k, v => if q = k then (k, v) :: rest else (q, w) :: mapSet rest k v

/-- The guarded insertion of `_add`: `if (!(name in this._entries))
this._entries[name] = entry` — first write wins. -/
def insertFW (m : EMap) (k : String) (v : Node) : EMap :=
  if mapHas m k then m else m ++ [(k, v)]

/-- The character rewrite of `name.replace(/\\/g, '/')`. -/
def normSepChar (c : Char) : Char :=
  if c = '\\' then '/' else c

/-- `name.replace(/\\/g, '/')`: backslash separators become forward slashes. -/
def normSep (s : String) : String :=
  ⟨s.data.map normSepChar⟩


/-- Does the path string start with `/` (POSIX absolute)? -/
def isAbsC : List Char → Bool
  | '/' :: _ => true
  | _ => false

/-- Split a character list on `/`; always returns at least one segment. -/
def splitSlash : List Char → List (List Char)
  | [] => [[]]
  | c :: cs =>
    if c = '/' then [] :: splitSlash cs
    else
      match splitSlash cs with
      | s :: rest => (c :: s) :: rest
      | [] => [[c]]

/-- One step of POSIX path normalization over segments: empty and `.`
segments vanish, `..` pops the (reversed) stack, anything else is pushed. -/
def stepSeg (acc : List (List Char)) (seg : List Char) : List (List Char) :=
  if seg = [] ∨ seg = ['.'] then acc
  else if seg = ['.', '.'] then acc.tail
  else seg :: acc

/-- Join segments with `/` separators. -/
def interSlash : List (List Char) → List Char
  | [] => []
  | [s] => s
  | s :: rest => s ++ '/' :: interSlash rest

/-- `path.resolve(root, name)` (POSIX, `root` absolute): if `name` is
absolute, normalize it alone, otherwise normalize `root/name`. -/
def resolvePath (root name : String) : String :=
  let segs := if isAbsC name.data then splitSlash name.data
              else splitSlash root.data ++ splitSlash name.data
  ⟨'/' :: interSlash ((segs.foldl stepSeg []).reverse)⟩

/-- The `VirtualEntries` state: the all-entries index, the files-only index
and the root path (`process.cwd()` with separators normalized). -/
structure VirtualEntries where
  entries : EMap
  files : EMap
  root : String

mutual
/-- `VirtualEntries._add(name, entry)`: first-write-wins insertion into
`_entries`; directories recurse into their children, anything else is
(unconditionally) assigned into `_files`.  Dispatch is by `entry.isDirectory()`,
which raises `TypeError` on a raw array. -/
def VirtualEntries._add (root : String) (name : String) (e : Node) (en fi : EMap) :
    Except JsErr (EMap × EMap) :=
  let en1 := insertFW en name e
  match e with
  | .dir _ cs => VirtualEntries._addChildren root name cs en1 fi
  | .file _ _ => .ok (en1, mapSet fi name e)
  | .arrv _ => .error .typeError
termination_by 2 * nodeSize e
decreasing_by all_goals (simp_wf; simp [nodeSize, nodeListSize]; try omega)

/-- The child loop of `_add`: for each child, resolve `name + '/' + child
name` against the root and recurse. -/
def VirtualEntries._addChildren (root : String) (name : String) (cs : List Node) (en fi : EMap) :
    Except JsErr (EMap × EMap) :=
  match cs with
  | [] => .ok (en, fi)
  | c :: rest =>
    match c.getName? with
    | none => .error .typeError
    | some cn =>
      match VirtualEntries._add root (resolvePath root (name ++ "/" ++ cn)) c en fi with
      | .error err => .error err
      | .ok (en', fi') => VirtualEntries._addChildren root name rest en' fi'
termination_by 2 * nodeListSize cs + 1
decreasing_by all_goals (simp_wf; simp [nodeSize, nodeListSize]; try omega)
end

/-- The loop of `VirtualEntries.add`: index each given entry under
`path.resolve(root, entry.getName())`. -/
def VirtualEntries._addList (root : String) (es : List Node) (en fi : EMap) :
    Except JsErr (EMap × EMap) :=
  match es with
  | [] => .ok (en, fi)
  | e :: rest =>
    match e.getName? with
    | none => .error .typeError
    | some n =>
      match VirtualEntries._add root (resolvePath root n) e en fi with
      | .error err => .error err
      | .ok (en', fi') => VirtualEntries._addList root rest en' fi'

/-- The first statement of `VirtualEntries.add`:
`this._entries[this._root].addChild(entries)`.  `addChild` is variadic but is
handed the whole array as its single argument, so the array itself is
appended to the root's child list. -/
def VirtualEntries.attach (ve : VirtualEntries) (es : List Node) : Except JsErr EMap :=
  match mapGet ve.entries ve.root with
  | none => .error .typeError
  | some rootDir =>
    match rootDir.addChild? [Node.arrv es] with
    | none => .error .typeError
    | some rootDir' => .ok (mapSet ve.entries ve.root rootDir')

/-- `VirtualEntries.add(entries)` (after the array normalization of a single
entry): attach to the root's child list, then index every entry. -/
def VirtualEntries.add (ve : VirtualEntries) (es : List Node) : Except JsErr VirtualEntries :=
  match ve.attach es with
  | .error err => .error err
  | .ok en =>
    match VirtualEntries._addList ve.root es en ve.files with
    | .error err => .error err
    | .ok (en', fi') => .ok ⟨en', fi', ve.root⟩

/-- The `VirtualEntries` constructor: normalize the cwd, seed the index with
a root `Directory` at the root path, then `add` the optional entries. -/
def VirtualEntries.init (cwd : String) (optEntries : Option (List Node)) :
    Except JsErr VirtualEntries :=
  let root := normSep cwd
  let ve : VirtualEntries := ⟨[(root, createDir root [])], [], root⟩
  match optEntries with
  | none => .ok ve
  | some es => ve.add es

/-- `VirtualEntries.getRealpath(name)`: resolve against the root.  Note: no
backslash normalization here, unlike `hasEntry`/`getEntry`. -/
def VirtualEntries.getRealpath (ve : VirtualEntries) (name : String) : String :=
  resolvePath ve.root name

/-- `VirtualEntries.hasEntry(name)`: normalize separators, resolve, test
index membership. -/
def VirtualEntries.hasEntry (ve : VirtualEntries) (name : String) : Bool :=
  let n := normSep name
  mapHas ve.entries (resolvePath ve.root n)

/-- `VirtualEntries.getEntry(name)`: normalize separators, resolve, look up;
`assert.ok` failure carrying the ENOENT message when absent. -/
def VirtualEntries.getEntry (ve : VirtualEntries) (name : String) : Except JsErr Node :=
  let n := normSep name
  match mapGet ve.entries (resolvePath ve.root n) with
  | some e => .ok e
  | none => .error (.assertionError ("ENOENT " ++ n ++ " no such file or directory."))

/-- The object returned by `statSync` (and passed to `stat`'s callback): it
only captures the queried path; no index lookup has happened yet. -/
structure StatObj where
  path : String
deriving DecidableEq

/-- `Filesystem.statSync(path)`: returns the stat object immediately; the
index is not consulted at call time. -/
def Filesystem.statSync (_entries : VirtualEntries) (p : String) : StatObj :=
  ⟨p⟩

/-- `Filesystem.stat(path, cb)`: the value passed (synchronously) to the
callback; the call itself never fails. -/
def Filesystem.stat (_entries : VirtualEntries) (p : String) : StatObj :=
  ⟨p⟩

/-- Invoking `isDirectory()` on a stat object: only now is the entry looked
up, in the `entries` binding as it stands at invocation time. -/
def StatObj.isDirectoryCall (entries : VirtualEntries) (o : StatObj) : Except JsErr Bool :=
  match entries.getEntry o.path with
  | .error err => .error err
  | .ok e =>
    match e.isDirectory? with
    | some b => .ok b
    | none => .error .typeError

/-- The `.map(function(ent) { return ent.getName(); })` over a child list;
`TypeError` if some element has no `getName` method (a raw array). -/
def getNames : List Node → Except JsErr (List String)
  | [] => .ok []
  | c :: cs =>
    match c.getName? with
    | none => .error .typeError
    | some n =>
      match getNames cs with
      | .ok ns => .ok (n :: ns)
      | .error err => .error err

/-- The effective `Filesystem.readdirSync`: `readdirSync` is assigned twice
in `resetSpies` and the second (callback-taking) closure wins; this is the
value it passes to the callback, or the error raised before the callback
would run.  The overwritten first closure had the same body with `return`
in place of `cb`. -/
def Filesystem.readdirSync (entries : VirtualEntries) (p : String) :
    Except JsErr (List String) :=
  match entries.getEntry p with
  | .error err => .error err
  | .ok ent =>
    match ent.isDirectory? with
    | none => .error .typeError
    | some d =>
      if d then
        match ent.getEntries? with
        | none => .error .typeError
        | some cs => getNames cs
      else .error (.assertionError (p ++ " is not a directory"))

/-- `Filesystem.realpathSync(path)`: delegates to `getRealpath`. -/
def Filesystem.realpathSync (entries : VirtualEntries) (p : String) : String :=
  entries.getRealpath p

/-- `Filesystem.realpath(path, cb)`: the value passed to the callback. -/
def Filesystem.realpath (entries : VirtualEntries) (p : String) : String :=
  entries.getRealpath p

/-- `Filesystem.readFileSync(path, encoding)`: look up, assert the entry is a
file, return its content.  The encoding argument is accepted and ignored. -/
def Filesystem.readFileSync (entries : VirtualEntries) (p : String) (_encoding : JSVal) :
    Except JsErr JSVal :=
  match entries.getEntry p with
  | .error err => .error err
  | .ok ent =>
    match ent.isFile? with
    | none => .error .typeError
    | some f =>
      if f then
        match ent.getContent? with
        | some c => .ok c
        | none => .error .typeError
      else .error (.assertionError ("ENOENT " ++ p ++ " no such file."))

/-- `Filesystem.readFile(path, encoding, cb)`: the value passed to the
callback, or the error raised before the callback would run. -/
def Filesystem.readFile (entries : VirtualEntries) (p : String) (_encoding : JSVal) :
    Except JsErr JSVal :=
  Filesystem.readFileSync entries p _encoding

/-- `Filesystem.writeFileSync(path, content, encoding)`: look up, assert the
entry is a file, overwrite its content in place.  Returns the updated state. -/
def Filesystem.writeFileSync (entries : VirtualEntries) (p : String) (content : JSVal)
    (_encoding : JSVal) : Except JsErr VirtualEntries :=
  match entries.getEntry p with
  | .error err => .error err
  | .ok ent =>
    match ent.isFile? with
    | none => .error .typeError
    | some f =>
      if f then
        match ent.setContent? content with
        | some ent' =>
          .ok ⟨mapSet entries.entries (resolvePath entries.root (normSep p)) ent',
               entries.files, entries.root⟩
        | none => .error .typeError
      else .error (.assertionError ("ENOENT " ++ p ++ " no such file."))

/-- `Filesystem.writeFile(path, content, encoding, cb)`: performs the write
and passes `setContent`'s return value — `undefined` — to the callback. -/
def Filesystem.writeFile (entries : VirtualEntries) (p : String) (content : JSVal)
    (_encoding : JSVal) : Except JsErr (JSVal × VirtualEntries) :=
  match Filesystem.writeFileSync entries p content _encoding with
  | .error err => .error err
  | .ok ve' => .ok (.undef, ve')

/-- One property assignment performed by `Filesystem.resetSpies`, in source
order: the property name and whether the assigned closure declares a
trailing callback parameter. -/
structure MethodAssignment where
  name : String
  takesCallback : Bool
deriving DecidableEq

/-- The assignments of `Filesystem.resetSpies`, in the order they appear in
the source.  `readdirSync` is assigned twice — the second closure takes
`(path, cb)` — and no `readdir` property is ever assigned. -/
def resetSpiesAssignments : List MethodAssignment :=
  [⟨"mkdirSync", false⟩,
   ⟨"statSync", false⟩,
   ⟨"stat", true⟩,
   ⟨"readdirSync", false⟩,
   ⟨"readdirSync", true⟩,
   ⟨"realpathSync", false⟩,
   ⟨"realpath", true⟩,
   ⟨"readFileSync", false⟩,
   ⟨"readFile", true⟩,
   ⟨"writeFileSync", false⟩,
   ⟨"writeFile", true⟩]

/-- The closure a method name refers to after `resetSpies`: the last
assignment to that property wins. -/
def methodSlot (n : String) : Option MethodAssignment :=
  (resetSpiesAssignments.filter (fun a => a.name = n)).getLast?

mutual
/-- The (path, entry) pairs inserted by `_add(p, e)`, in insertion order. -/
def walkOne (root : String) (p : String) (e : Node) : List (String × Node) :=
  (p, e) ::
    match e with
    | .dir _ cs => walkChildren root p cs
    | _ => []
termination_by 2 * nodeSize e
decreasing_by all_goals (simp_wf; simp [nodeSize, nodeListSize]; try omega)

/-- The (path, entry) pairs inserted by the child loop of `_add`. -/
def walkChildren (root : String) (p : String) (cs : List Node) : List (String × Node) :=
  match cs with
  | [] => []
  | c :: rest =>
    (match c.getName? with
     | some cn => walkOne root (resolvePath root (p ++ "/" ++ cn)) c
     | none => []) ++ walkChildren root p rest
termination_by 2 * nodeListSize cs + 1
decreasing_by all_goals (simp_wf; simp [nodeSize, nodeListSize]; try omega)
end

/-- The (path, entry) pairs inserted by `add(es)`, in insertion order. -/
def walkAdd (root : String) (es : List Node) : List (String × Node) :=
  match es with
  | [] => []
  | e :: rest =>
    (match e.getName? with
     | some n => walkOne root (resolvePath root n) e
     | none => []) ++ walkAdd root rest

/-- First value bound to a key in a (path, entry) pair list. -/
def pfind : List (String × Node) → String → Option Node
  | [], _ => none
  | (q, v) :: rest, k => if q = k then some v else pfind rest k

/-- Left-biased choice on options (JS first-write-wins composition). -/
def ofirst : Option Node → Option Node → Option Node
  | some v, _ => some v
  | none, b => b

/-- A concrete fixture state: the state constructed by the `VirtualEntries`
constructor when `process.cwd()` is `/cwd` and no entries are given. -/
def veFix : VirtualEntries :=
  ⟨[("/cwd", Node.dir "/cwd" [])], [], "/cwd"⟩

/-! ### Basic lemmas: separator normalization, option choice, lookup -/

theorem normSepChar_idem (c : Char) : normSepChar (normSepChar c) = normSepChar c := by
  by_cases h : c = '\\' <;> simp [normSepChar, h]

theorem normSep_idem (s : String) : normSep (normSep s) = normSep s := by
  apply String.ext
  show (s.data.map normSepChar).map normSepChar = s.data.map normSepChar
  rw [List.map_map]
  exact List.map_congr_left (fun c _ => normSepChar_idem c)

theorem noBackslash_normSep_eq (s : String) (h : noBackslash s = true) : normSep s = s := by
  apply String.ext
  show s.data.map normSepChar = s.data
  unfold noBackslash at h
  rw [List.all_eq_true] at h
  have : ∀ c ∈ s.data, normSepChar c = c := by
    intro c hc
    have hb := h c hc
    simp only [bne_iff_ne, ne_eq] at hb
    simp [normSepChar, hb]
  rw [List.map_congr_left this]
  simp

theorem ofirst_none_right (a : Option Node) : ofirst a none = a := by
  cases a <;> rfl

theorem ofirst_assoc (a b c : Option Node) :
    ofirst (ofirst a b) c = ofirst a (ofirst b c) := by
  cases a <;> rfl

theorem ofirst_isSome_right (a b : Option Node) (h : b.isSome = true) :
    (ofirst a b).isSome = true := by
  cases a <;> simp [ofirst, h]

theorem pfind_append (ps qs : List (String × Node)) (k : String) :
    pfind (ps ++ qs) k = ofirst (pfind ps k) (pfind qs k) := by
  induction ps with
  | nil => simp [pfind, ofirst]
  | cons p rest ih =>
    obtain ⟨q, v⟩ := p
    by_cases h : q = k <;> simp [pfind, h, ofirst, ih]

theorem pfind_isSome_of_mem (ps : List (String × Node)) (p : String) (e : Node)
    (h : (p, e) ∈ ps) : (pfind ps p).isSome = true := by
  induction ps with
  | nil => cases h
  | cons q rest ih =>
    obtain ⟨qk, qv⟩ := q
    rcases List.mem_cons.mp h with h1 | h2
    · cases h1; simp [pfind]
    · by_cases hk : qk = p <;> simp [pfind, hk, ih h2]

theorem mapGet_append (m1 m2 : EMap) (k : String) :
    mapGet (m1 ++ m2) k = ofirst (mapGet m1 k) (mapGet m2 k) := by
  induction m1 with
  | nil => simp [mapGet, ofirst]
  | cons p rest ih =>
    obtain ⟨q, v⟩ := p
    by_cases h : q = k <;> simp [mapGet, h, ofirst, ih]

theorem mapGet_mapSet_self (m : EMap) (k : String) (v : Node) :
    mapGet (mapSet m k v) k = some v := by
  induction m with
  | nil => simp [mapSet, mapGet]
  | cons p rest ih =>
    obtain ⟨q, w⟩ := p
    by_cases h : q = k <;> simp [mapSet, h, mapGet, ih]

theorem mapGet_mapSet_ne (m : EMap) (k q : String) (v : Node) (h : q ≠ k) :
    mapGet (mapSet m k v) q = mapGet m q := by
  have h' : k ≠ q := Ne.symm h
  induction m with
  | nil => simp [mapSet, mapGet, h']
  | cons p rest ih =>
    obtain ⟨pk, pv⟩ := p
    by_cases hp : pk = k
    · subst hp
      simp [mapSet, mapGet, h']
    · simp [mapSet, mapGet, hp, ih]

theorem mapGet_insertFW (m : EMap) (k q : String) (v : Node) :
    mapGet (insertFW m k v) q = ofirst (mapGet m q) (if k = q then some v else none) := by
  unfold insertFW
  by_cases h : mapHas m k = true
  · rw [if_pos h]
    by_cases hk : k = q
    · subst hk
      unfold mapHas at h
      obtain ⟨w, hw⟩ := Option.isSome_iff_exists.mp h
      simp [hw, ofirst]
    · simp [hk, ofirst_none_right]
  · rw [if_neg h, mapGet_append]
    have hsing : mapGet [(k, v)] q = if k = q then some v else none := by
      by_cases hk : k = q <;> simp [mapGet, hk]
    rw [hsing]

/-! ### Lemmas about `splitSlash`, `stepSeg`, `interSlash` and `resolvePath` -/

theorem splitSlash_ne_nil (l : List Char) : splitSlash l ≠ [] := by
  cases l with
  | nil => simp [splitSlash]
  | cons c cs =>
    unfold splitSlash
    by_cases h : c = '/'
    · simp [h]
    · rw [if_neg h]
      cases hs : splitSlash cs <;> simp

theorem mem_of_mem_splitSlash :
    ∀ (l s : List Char), s ∈ splitSlash l → ∀ c ∈ s, c ∈ l ∧ c ≠ '/' := by
  intro l
  induction l with
  | nil =>
    intro s hs c hc
    simp [splitSlash] at hs
    subst hs
    cases hc
  | cons x xs ih =>
    intro s hs c hc
    unfold splitSlash at hs
    by_cases hx : x = '/'
    · rw [if_pos hx] at hs
      rcases List.mem_cons.mp hs with h1 | h2
      · subst h1; cases hc
      · have h3 := ih s h2 c hc
        exact ⟨List.mem_cons_of_mem _ h3.1, h3.2⟩
    · rw [if_neg hx] at hs
      cases hsplit : splitSlash xs with
      | nil => exact absurd hsplit (splitSlash_ne_nil xs)
      | cons s0 rest =>
        rw [hsplit] at hs
        rcases List.mem_cons.mp hs with h1 | h2
        · subst h1
          rcases List.mem_cons.mp hc with hcx | hcs
          · subst hcx; exact ⟨List.mem_cons_self _ _, hx⟩
          · have hm : s0 ∈ splitSlash xs := by rw [hsplit]; exact List.mem_cons_self _ _
            have h3 := ih s0 hm c hcs
            exact ⟨List.mem_cons_of_mem _ h3.1, h3.2⟩
        · have hm : s ∈ splitSlash xs := by rw [hsplit]; exact List.mem_cons_of_mem _ h2
          have h3 := ih s hm c hc
          exact ⟨List.mem_cons_of_mem _ h3.1, h3.2⟩

theorem splitSlash_no_slash (s : List Char) (h : '/' ∉ s) : splitSlash s = [s] := by
  induction s with
  | nil => rfl
  | cons c cs ih =>
    have hc : c ≠ '/' := fun hh => h (hh ▸ List.mem_cons_self _ _)
    have hcs : '/' ∉ cs := fun hh => h (List.mem_cons_of_mem _ hh)
    unfold splitSlash
    rw [if_neg hc, ih hcs]

theorem splitSlash_cons_of_ne (c : Char) (cs : List Char) (h : c ≠ '/')
    (s0 : List Char) (rest : List (List Char)) (hs : splitSlash cs = s0 :: rest) :
    splitSlash (c :: cs) = (c :: s0) :: rest := by
  unfold splitSlash
  rw [if_neg h, hs]

theorem splitSlash_append_slash (s r : List Char) (h : '/' ∉ s) :
    splitSlash (s ++ '/' :: r) = s :: splitSlash r := by
  induction s with
  | nil => simp [splitSlash]
  | cons c cs ih =>
    have hc : c ≠ '/' := fun hh => h (hh ▸ List.mem_cons_self _ _)
    have hcs : '/' ∉ cs := fun hh => h (List.mem_cons_of_mem _ hh)
    exact splitSlash_cons_of_ne c (cs ++ '/' :: r) hc cs (splitSlash r) (ih hcs)

theorem splitSlash_interSlash :
    ∀ (ss : List (List Char)), ss ≠ [] → (∀ s ∈ ss, '/' ∉ s) →
      splitSlash (interSlash ss) = ss := by
  intro ss
  induction ss with
  | nil => intro h; exact absurd rfl h
  | cons s rest ih =>
    intro _ hall
    cases rest with
    | nil =>
      show splitSlash (interSlash [s]) = [s]
      have : interSlash [s] = s := rfl
      rw [this]
      exact splitSlash_no_slash s (hall s (List.mem_cons_self _ _))
    | cons t ts =>
      have hstep : interSlash (s :: t :: ts) = s ++ '/' :: interSlash (t :: ts) := rfl
      rw [hstep, splitSlash_append_slash s _ (hall s (List.mem_cons_self _ _))]
      rw [ih (by simp) (fun u hu => hall u (List.mem_cons_of_mem _ hu))]

theorem interSlash_chars :
    ∀ (ss : List (List Char)) (c : Char), c ∈ interSlash ss → c = '/' ∨ ∃ s ∈ ss, c ∈ s := by
  intro ss
  induction ss with
  | nil => intro c h; cases h
  | cons s rest ih =>
    intro c h
    cases rest with
    | nil => exact Or.inr ⟨s, List.mem_cons_self _ _, h⟩
    | cons t ts =>
      have hstep : interSlash (s :: t :: ts) = s ++ '/' :: interSlash (t :: ts) := rfl
      rw [hstep] at h
      rcases List.mem_append.mp h with h1 | h2
      · exact Or.inr ⟨s, List.mem_cons_self _ _, h1⟩
      · rcases List.mem_cons.mp h2 with h3 | h4
        · exact Or.inl h3
        · rcases ih c h4 with h5 | ⟨u, hu, hc⟩
          · exact Or.inl h5
          · exact Or.inr ⟨u, List.mem_cons_of_mem _ hu, hc⟩

theorem foldl_stepSeg_mem :
    ∀ (segs acc : List (List Char)) (x : List Char),
      x ∈ List.foldl stepSeg acc segs → x ∈ acc ∨ x ∈ segs := by
  intro segs
  induction segs with
  | nil =>
    intro acc x h
    simp only [List.foldl_nil] at h
    exact Or.inl h
  | cons s rest ih =>
    intro acc x h
    rw [List.foldl_cons] at h
    rcases ih (stepSeg acc s) x h with h1 | h2
    · unfold stepSeg at h1
      split at h1
      · exact Or.inl h1
      · split at h1
        · exact Or.inl (List.mem_of_mem_tail h1)
        · rcases List.mem_cons.mp h1 with h3 | h4
          · subst h3; exact Or.inr (List.mem_cons_self _ _)
          · exact Or.inl h4
    · exact Or.inr (List.mem_cons_of_mem _ h2)

theorem foldl_stepSeg_pushable :
    ∀ (segs acc : List (List Char)),
      (∀ a ∈ acc, a ≠ [] ∧ a ≠ ['.'] ∧ a ≠ ['.', '.']) →
      ∀ x ∈ List.foldl stepSeg acc segs, x ≠ [] ∧ x ≠ ['.'] ∧ x ≠ ['.', '.'] := by
  intro segs
  induction segs with
  | nil =>
    intro acc h x hx
    simp only [List.foldl_nil] at hx
    exact h x hx
  | cons s rest ih =>
    intro acc h x hx
    rw [List.foldl_cons] at hx
    refine ih (stepSeg acc s) ?_ x hx
    intro a ha
    unfold stepSeg at ha
    split at ha
    · exact h a ha
    · split at ha
      · exact h a (List.mem_of_mem_tail ha)
      · rcases List.mem_cons.mp ha with h3 | h4
        · subst h3
          rename_i h1 h2
          exact ⟨fun hh => h1 (Or.inl hh), fun hh => h1 (Or.inr hh), h2⟩
        · exact h a h4

theorem foldl_stepSeg_pushable_eq :
    ∀ (segs acc : List (List Char)),
      (∀ s ∈ segs, s ≠ [] ∧ s ≠ ['.'] ∧ s ≠ ['.', '.']) →
      List.foldl stepSeg acc segs = segs.reverse ++ acc := by
  intro segs
  induction segs with
  | nil => intro acc _; simp
  | cons s rest ih =>
    intro acc h
    have hs := h s (List.mem_cons_self _ _)
    have hstep : stepSeg acc s = s :: acc := by
      unfold stepSeg
      rw [if_neg (fun hh => by rcases hh with hh | hh
                               · exact hs.1 hh
                               · exact hs.2.1 hh),
          if_neg hs.2.2]
    rw [List.foldl_cons, hstep, ih (s :: acc) (fun t ht => h t (List.mem_cons_of_mem _ ht))]
    simp

theorem splitSlash_cons_slash (cs : List Char) :
    splitSlash ('/' :: cs) = [] :: splitSlash cs := by
  simp [splitSlash]

theorem resolvePath_of_abs (root : String) (l : List Char) :
    resolvePath root ⟨'/' :: l⟩ =
      ⟨'/' :: interSlash (((splitSlash ('/' :: l)).foldl stepSeg []).reverse)⟩ := rfl

theorem resolvePath_fixed (root : String) (stack : List (List Char))
    (hp : ∀ s ∈ stack, s ≠ [] ∧ s ≠ ['.'] ∧ s ≠ ['.', '.'])
    (hns : ∀ s ∈ stack, '/' ∉ s) :
    resolvePath root ⟨'/' :: interSlash stack⟩ = ⟨'/' :: interSlash stack⟩ := by
  rw [resolvePath_of_abs]
  cases stack with
  | nil => rfl
  | cons s ss =>
    have h1 : splitSlash ('/' :: interSlash (s :: ss)) = [] :: s :: ss := by
      rw [splitSlash_cons_slash, splitSlash_interSlash (s :: ss) (by simp) hns]
    rw [h1]
    have h2 : List.foldl stepSeg [] ([] :: s :: ss) = (s :: ss).reverse := by
      rw [List.foldl_cons]
      have hnilstep : stepSeg [] [] = [] := rfl
      rw [hnilstep, foldl_stepSeg_pushable_eq (s :: ss) [] hp]
      simp
    rw [h2, List.reverse_reverse]

theorem resolvePath_stack (root name : String) :
    ∃ stack : List (List Char),
      resolvePath root name = ⟨'/' :: interSlash stack⟩ ∧
      (∀ x ∈ stack, x ≠ [] ∧ x ≠ ['.'] ∧ x ≠ ['.', '.']) ∧
      (∀ x ∈ stack, '/' ∉ x) ∧
      (∀ x ∈ stack, x ∈ (if isAbsC name.data then splitSlash name.data
                         else splitSlash root.data ++ splitSlash name.data)) := by
  set segs := (if isAbsC name.data then splitSlash name.data
               else splitSlash root.data ++ splitSlash name.data) with hsegs
  refine ⟨(segs.foldl stepSeg []).reverse, rfl, ?_, ?_, ?_⟩
  · intro x hx
    rw [List.mem_reverse] at hx
    exact foldl_stepSeg_pushable segs [] (by intro a ha; cases ha) x hx
  · intro x hx hsl
    rw [List.mem_reverse] at hx
    rcases foldl_stepSeg_mem segs [] x hx with h | h
    · cases h
    · rw [hsegs] at h
      split at h
      · exact (mem_of_mem_splitSlash _ x h '/' hsl).2 rfl
      · rcases List.mem_append.mp h with h2 | h2
        · exact (mem_of_mem_splitSlash _ x h2 '/' hsl).2 rfl
        · exact (mem_of_mem_splitSlash _ x h2 '/' hsl).2 rfl
  · intro x hx
    rw [List.mem_reverse] at hx
    rcases foldl_stepSeg_mem segs [] x hx with h | h
    · cases h
    · exact h

theorem resolvePath_idem (root name : String) :
    resolvePath root (resolvePath root name) = resolvePath root name := by
  obtain ⟨stack, heq, hp, hns, _⟩ := resolvePath_stack root name
  rw [heq]
  exact resolvePath_fixed root stack hp hns

theorem resolvePath_chars (root name : String) (c : Char)
    (h : c ∈ (resolvePath root name).data) :
    c = '/' ∨ c ∈ root.data ∨ c ∈ name.data := by
  obtain ⟨stack, heq, _, _, hmem⟩ := resolvePath_stack root name
  rw [heq] at h
  rcases List.mem_cons.mp h with h1 | h2
  · exact Or.inl h1
  · rcases interSlash_chars stack c h2 with h3 | ⟨s, hs, hc⟩
    · exact Or.inl h3
    · have hseg := hmem s hs
      split at hseg
      · exact Or.inr (Or.inr (mem_of_mem_splitSlash _ s hseg c hc).1)
      · rcases List.mem_append.mp hseg with h4 | h4
        · exact Or.inr (Or.inl (mem_of_mem_splitSlash _ s h4 c hc).1)
        · exact Or.inr (Or.inr (mem_of_mem_splitSlash _ s h4 c hc).1)

theorem resolvePath_noBackslash (root name : String)
    (h1 : noBackslash root = true) (h2 : noBackslash name = true) :
    noBackslash (resolvePath root name) = true := by
  unfold noBackslash at *
  rw [List.all_eq_true] at *
  intro c hc
  rcases resolvePath_chars root name c hc with rfl | h | h
  · decide
  · exact h1 c h
  · exact h2 c h

/-! ### Characterization of `_add`, `_addList` and `add` -/

theorem pfind_cons_of (q : String) (v : Node) (ps : List (String × Node)) (k : String) :
    pfind ((q, v) :: ps) k = ofirst (if q = k then some v else none) (pfind ps k) := by
  by_cases h : q = k <;> simp [pfind, h, ofirst]

theorem goodEntry_getName (e : Node) (h : Node.goodEntry e = true) :
    ∃ cn, e.getName? = some cn ∧ noBackslash cn = true := by
  cases e with
  | dir n cs =>
    refine ⟨n, rfl, ?_⟩
    simp [Node.goodEntry] at h
    exact h.1
  | file n c =>
    refine ⟨n, rfl, ?_⟩
    simp [Node.goodEntry] at h
    exact h
  | arrv es => simp [Node.goodEntry] at h

theorem goodList_cons (c : Node) (cs : List Node) (h : Node.goodList (c :: cs) = true) :
    Node.goodEntry c = true ∧ Node.goodList cs = true := by
  simp [Node.goodList] at h
  exact h

theorem _add_spec_aux (root : String) : ∀ n : Nat,
    (∀ e, nodeSize e ≤ n → ∀ p en fi, Node.goodEntry e = true →
      ∃ en' fi', VirtualEntries._add root p e en fi = .ok (en', fi') ∧
        ∀ k, mapGet en' k = ofirst (mapGet en k) (pfind (walkOne root p e) k)) ∧
    (∀ cs, nodeListSize cs ≤ n → ∀ p en fi, Node.goodList cs = true →
      ∃ en' fi', VirtualEntries._addChildren root p cs en fi = .ok (en', fi') ∧
        ∀ k, mapGet en' k = ofirst (mapGet en k) (pfind (walkChildren root p cs) k)) := by
  intro n
  induction n with
  | zero =>
    constructor
    · intro e he
      exact absurd he (by cases e <;> simp [nodeSize] <;> omega)
    · intro cs hcs p en fi _
      have hnil : cs = [] := by
        cases cs with
        | nil => rfl
        | cons c rest => exact absurd hcs (by simp [nodeListSize])
      subst hnil
      refine ⟨en, fi, by simp [VirtualEntries._addChildren], ?_⟩
      intro k
      simp [walkChildren, pfind, ofirst_none_right]
  | succ n ih =>
    have hone : ∀ e, nodeSize e ≤ n + 1 → ∀ p en fi, Node.goodEntry e = true →
        ∃ en' fi', VirtualEntries._add root p e en fi = .ok (en', fi') ∧
          ∀ k, mapGet en' k = ofirst (mapGet en k) (pfind (walkOne root p e) k) := by
      intro e he p en fi hg
      cases e with
      | file nm c =>
        refine ⟨insertFW en p (.file nm c), mapSet fi p (.file nm c),
          by simp [VirtualEntries._add], ?_⟩
        intro k
        have hw : pfind (walkOne root p (Node.file nm c)) k
            = if p = k then some (Node.file nm c) else none := by
          simp [walkOne, pfind]
        rw [hw, mapGet_insertFW]
      | dir nm cs =>
        have hcs : nodeListSize cs ≤ n := by
          simp [nodeSize] at he
          omega
        have hg' : Node.goodList cs = true := by
          simp [Node.goodEntry] at hg
          exact hg.2
        obtain ⟨en', fi', hok, hchar⟩ :=
          ih.2 cs hcs p (insertFW en p (.dir nm cs)) fi hg'
        refine ⟨en', fi', by simp [VirtualEntries._add, hok], ?_⟩
        intro k
        have hw : walkOne root p (Node.dir nm cs)
            = (p, Node.dir nm cs) :: walkChildren root p cs := by
          simp [walkOne]
        rw [hchar k, mapGet_insertFW, ofirst_assoc, hw, pfind_cons_of]
      | arrv es => simp [Node.goodEntry] at hg
    refine ⟨hone, ?_⟩
    intro cs hcs p en fi hg
    cases cs with
    | nil =>
      refine ⟨en, fi, by simp [VirtualEntries._addChildren], ?_⟩
      intro k
      simp [walkChildren, pfind, ofirst_none_right]
    | cons c rest =>
      obtain ⟨hgc, hgr⟩ := goodList_cons c rest hg
      have hszc : nodeSize c ≤ n + 1 := by
        simp [nodeListSize] at hcs
        omega
      have hszr : nodeListSize rest ≤ n := by
        simp [nodeListSize] at hcs
        omega
      obtain ⟨cn, hcn, _⟩ := goodEntry_getName c hgc
      obtain ⟨en1, fi1, hok1, hchar1⟩ :=
        hone c hszc (resolvePath root (p ++ "/" ++ cn)) en fi hgc
      obtain ⟨en', fi', hok2, hchar2⟩ := ih.2 rest hszr p en1 fi1 hgr
      refine ⟨en', fi', by simp [VirtualEntries._addChildren, hcn, hok1, hok2], ?_⟩
      intro k
      have hw : walkChildren root p (c :: rest)
          = walkOne root (resolvePath root (p ++ "/" ++ cn)) c ++ walkChildren root p rest := by
        simp [walkChildren, hcn]
      rw [hchar2 k, hchar1 k, ofirst_assoc, hw, pfind_append]

theorem _add_spec (root p : String) (e : Node) (en fi : EMap)
    (hg : Node.goodEntry e = true) :
    ∃ en' fi', VirtualEntries._add root p e en fi = .ok (en', fi') ∧
      ∀ k, mapGet en' k = ofirst (mapGet en k) (pfind (walkOne root p e) k) :=
  (_add_spec_aux root (nodeSize e)).1 e le_rfl p en fi hg

theorem _addList_spec (root : String) :
    ∀ (es : List Node) (en fi : EMap), Node.goodList es = true →
      ∃ en' fi', VirtualEntries._addList root es en fi = .ok (en', fi') ∧
        ∀ k, mapGet en' k = ofirst (mapGet en k) (pfind (walkAdd root es) k) := by
  intro es
  induction es with
  | nil =>
    intro en fi _
    refine ⟨en, fi, by simp [VirtualEntries._addList], ?_⟩
    intro k
    simp [walkAdd, pfind, ofirst_none_right]
  | cons e rest ih =>
    intro en fi hg
    obtain ⟨hge, hgr⟩ := goodList_cons e rest hg
    obtain ⟨nm, hnm, _⟩ := goodEntry_getName e hge
    obtain ⟨en1, fi1, hok1, hchar1⟩ := _add_spec root (resolvePath root nm) e en fi hge
    obtain ⟨en', fi', hok2, hchar2⟩ := ih en1 fi1 hgr
    refine ⟨en', fi', by simp [VirtualEntries._addList, hnm, hok1, hok2], ?_⟩
    intro k
    have hw : walkAdd root (e :: rest)
        = walkOne root (resolvePath root nm) e ++ walkAdd root rest := by
      simp [walkAdd, hnm]
    rw [hchar2 k, hchar1 k, ofirst_assoc, hw, pfind_append]

theorem add_spec (ve : VirtualEntries) (es : List Node) (en0 : EMap)
    (hat : ve.attach es = .ok en0) (hg : Node.goodList es = true) :
    ∃ ve', ve.add es = .ok ve' ∧ ve'.root = ve.root ∧
      ∀ k, mapGet ve'.entries k = ofirst (mapGet en0 k) (pfind (walkAdd ve.root es) k) := by
  obtain ⟨en', fi', hok, hchar⟩ := _addList_spec ve.root es en0 ve.files hg
  refine ⟨⟨en', fi', ve.root⟩, ?_, rfl, hchar⟩
  simp [VirtualEntries.add, hat, hok]

/-! ### Keys produced by the `add` walk -/

theorem noBackslash_append_seg (q cn : String)
    (hq : noBackslash q = true) (hcn : noBackslash cn = true) :
    noBackslash (q ++ "/" ++ cn) = true := by
  unfold noBackslash at hq hcn ⊢
  rw [String.data_append, String.data_append, List.all_append, List.all_append]
  rw [Bool.and_eq_true, Bool.and_eq_true]
  exact ⟨⟨hq, by decide⟩, hcn⟩

theorem walk_keys_aux (root : String) (hroot : noBackslash root = true) : ∀ n : Nat,
    (∀ e, nodeSize e ≤ n → ∀ q p e', Node.goodEntry e = true → noBackslash q = true →
      (∃ y, q = resolvePath root y) → (p, e') ∈ walkOne root q e →
      noBackslash p = true ∧ ∃ x, p = resolvePath root x) ∧
    (∀ cs, nodeListSize cs ≤ n → ∀ q p e', Node.goodList cs = true → noBackslash q = true →
      (∃ y, q = resolvePath root y) → (p, e') ∈ walkChildren root q cs →
      noBackslash p = true ∧ ∃ x, p = resolvePath root x) := by
  intro n
  induction n with
  | zero =>
    constructor
    · intro e he
      exact absurd he (by cases e <;> simp [nodeSize] <;> omega)
    · intro cs hcs q p e' _ _ _ hmem
      have hnil : cs = [] := by
        cases cs with
        | nil => rfl
        | cons c rest => exact absurd hcs (by simp [nodeListSize])
      subst hnil
      simp [walkChildren] at hmem
  | succ n ih =>
    have hone : ∀ e, nodeSize e ≤ n + 1 → ∀ q p e', Node.goodEntry e = true →
        noBackslash q = true → (∃ y, q = resolvePath root y) → (p, e') ∈ walkOne root q e →
        noBackslash p = true ∧ ∃ x, p = resolvePath root x := by
      intro e he q p e' hg hq hqr hmem
      cases e with
      | file nm c =>
        simp [walkOne] at hmem
        obtain ⟨hp, _⟩ := hmem
        subst hp
        exact ⟨hq, hqr⟩
      | dir nm cs =>
        have hw : walkOne root q (Node.dir nm cs)
            = (q, Node.dir nm cs) :: walkChildren root q cs := by
          simp [walkOne]
        rw [hw] at hmem
        rcases List.mem_cons.mp hmem with h1 | h2
        · cases h1
          exact ⟨hq, hqr⟩
        · have hszcs : nodeListSize cs ≤ n := by
            simp [nodeSize] at he
            omega
          have hgl : Node.goodList cs = true := by
            simp [Node.goodEntry] at hg
            exact hg.2
          exact ih.2 cs hszcs q p e' hgl hq hqr h2
      | arrv es => simp [Node.goodEntry] at hg
    refine ⟨hone, ?_⟩
    intro cs hcs q p e' hg hq hqr hmem
    cases cs with
    | nil => simp [walkChildren] at hmem
    | cons c rest =>
      obtain ⟨hgc, hgr⟩ := goodList_cons c rest hg
      obtain ⟨cn, hcn, hcnb⟩ := goodEntry_getName c hgc
      have hw : walkChildren root q (c :: rest)
          = walkOne root (resolvePath root (q ++ "/" ++ cn)) c ++ walkChildren root q rest := by
        simp [walkChildren, hcn]
      rw [hw] at hmem
      have hszc : nodeSize c ≤ n + 1 := by
        simp [nodeListSize] at hcs
        omega
      have hszr : nodeListSize rest ≤ n := by
        simp [nodeListSize] at hcs
        omega
      rcases List.mem_append.mp hmem with h1 | h2
      · have hkeyb : noBackslash (resolvePath root (q ++ "/" ++ cn)) = true :=
          resolvePath_noBackslash root _ hroot (noBackslash_append_seg q cn hq hcnb)
        exact hone c hszc _ p e' hgc hkeyb ⟨q ++ "/" ++ cn, rfl⟩ h1
      · exact ih.2 rest hszr q p e' hgr hq hqr h2

theorem walkAdd_keys (root : String) (hroot : noBackslash root = true) :
    ∀ (es : List Node), Node.goodList es = true → ∀ p e', (p, e') ∈ walkAdd root es →
      noBackslash p = true ∧ ∃ x, p = resolvePath root x := by
  intro es
  induction es with
  | nil =>
    intro _ p e' hmem
    simp [walkAdd] at hmem
  | cons e rest ih =>
    intro hg p e' hmem
    obtain ⟨hge, hgr⟩ := goodList_cons e rest hg
    obtain ⟨nm, hnm, hnmb⟩ := goodEntry_getName e hge
    have hw : walkAdd root (e :: rest)
        = walkOne root (resolvePath root nm) e ++ walkAdd root rest := by
      simp [walkAdd, hnm]
    rw [hw] at hmem
    rcases List.mem_append.mp hmem with h1 | h2
    · exact (walk_keys_aux root hroot (nodeSize e)).1 e le_rfl _ p e' hge
        (resolvePath_noBackslash root nm hroot hnmb) ⟨nm, rfl⟩ h1
    · exact ih hgr p e' h2

/-! ### Operation-level helper lemmas -/

theorem getEntry_of_not_has (ve : VirtualEntries) (p : String) (h : ve.hasEntry p = false) :
    ve.getEntry p
      = .error (.assertionError ("ENOENT " ++ normSep p ++ " no such file or directory.")) := by
  simp only [VirtualEntries.hasEntry, mapHas] at h
  cases hm : mapGet ve.entries (resolvePath ve.root (normSep p)) with
  | none => simp [VirtualEntries.getEntry, hm]
  | some e =>
    rw [hm] at h
    simp at h

theorem getEntry_of_mapGet (ve : VirtualEntries) (p : String) (e : Node)
    (h : mapGet ve.entries (resolvePath ve.root (normSep p)) = some e) :
    ve.getEntry p = .ok e := by
  simp [VirtualEntries.getEntry, h]

theorem add_ok_root (ve : VirtualEntries) (es : List Node) (ve' : VirtualEntries)
    (h : ve.add es = .ok ve') : ve'.root = ve.root := by
  cases hat : ve.attach es with
  | error e => simp [VirtualEntries.add, hat] at h
  | ok en =>
    cases hl : VirtualEntries._addList ve.root es en ve.files with
    | error e2 => simp [VirtualEntries.add, hat, hl] at h
    | ok pr =>
      obtain ⟨en', fi'⟩ := pr
      simp [VirtualEntries.add, hat, hl] at h
      subst h
      rfl

theorem writeFileSync_ok_root (ve : VirtualEntries) (p : String) (c enc : JSVal)
    (ve' : VirtualEntries) (h : Filesystem.writeFileSync ve p c enc = .ok ve') :
    ve'.root = ve.root := by
  cases hg : ve.getEntry p with
  | error e => simp [Filesystem.writeFileSync, hg] at h
  | ok ent =>
    cases ent with
    | dir nm cs => simp [Filesystem.writeFileSync, hg, Node.isFile?] at h
    | arrv es => simp [Filesystem.writeFileSync, hg, Node.isFile?] at h
    | file nm c0 =>
      simp [Filesystem.writeFileSync, hg, Node.isFile?, Node.setContent?] at h
      subst h
      rfl

/-! ### Claim theorems -/

/-- C1, counterexample.  The claim says `stat` on an absent path fails with
Not-Found at the moment `stat` is invoked.  In the code, `statSync` (and the
callback form `stat`) does not consult the Index at call time: on the absent
path `missing` of an empty tree it returns a stat object, and the Not-Found
assertion failure only happens later, when `isDirectory()` is invoked on that
object. -/
theorem stat_not_eager_cex :
    VirtualEntries.hasEntry veFix "missing" = false ∧
    Filesystem.statSync veFix "missing" = { path := "missing" } ∧
    Filesystem.stat veFix "missing" = { path := "missing" } ∧
    StatObj.isDirectoryCall veFix { path := "missing" }
      = .error (.assertionError "ENOENT missing no such file or directory.") :=
  ⟨rfl, rfl, rfl, rfl⟩

/-- C1, amended.  For every path absent from the Index, `readFile`,
`writeFile` and the `readdir` operation (synchronous and callback forms alike)
fail with the Not-Found assertion error at the point of the call, before any
callback would run; `stat`/`statSync` do not fail at the call — each returns
(or passes to its callback) an object whose `isDirectory()` raises the
Not-Found error when invoked. -/
theorem not_found_at_call (ve : VirtualEntries) (p : String) (c enc : JSVal)
    (h : ve.hasEntry p = false) :
    Filesystem.readFileSync ve p enc
      = .error (.assertionError ("ENOENT " ++ normSep p ++ " no such file or directory.")) ∧
    Filesystem.readFile ve p enc
      = .error (.assertionError ("ENOENT " ++ normSep p ++ " no such file or directory.")) ∧
    Filesystem.writeFileSync ve p c enc
      = .error (.assertionError ("ENOENT " ++ normSep p ++ " no such file or directory.")) ∧
    Filesystem.writeFile ve p c enc
      = .error (.assertionError ("ENOENT " ++ normSep p ++ " no such file or directory.")) ∧
    Filesystem.readdirSync ve p
      = .error (.assertionError ("ENOENT " ++ normSep p ++ " no such file or directory.")) ∧
    Filesystem.statSync ve p = { path := p } ∧
    Filesystem.stat ve p = { path := p } ∧
    StatObj.isDirectoryCall ve { path := p }
      = .error (.assertionError ("ENOENT " ++ normSep p ++ " no such file or directory.")) := by
  have hge := getEntry_of_not_has ve p h
  refine ⟨?_, ?_, ?_, ?_, ?_, rfl, rfl, ?_⟩
  · simp [Filesystem.readFileSync, hge]
  · simp [Filesystem.readFile, Filesystem.readFileSync, hge]
  · simp [Filesystem.writeFileSync, hge]
  · simp [Filesystem.writeFile, Filesystem.writeFileSync, hge]
  · simp [Filesystem.readdirSync, hge]
  · simp [StatObj.isDirectoryCall, hge]

/-- C1, witness for `not_found_at_call` at the concrete empty tree and the
absent path `nope`. -/
theorem not_found_at_call_witness :
    VirtualEntries.hasEntry veFix "nope" = false ∧
    Filesystem.readFileSync veFix "nope" JSVal.undef
      = .error (.assertionError "ENOENT nope no such file or directory.") :=
  ⟨rfl, (not_found_at_call veFix "nope" JSVal.undef JSVal.undef rfl).1⟩

/-- C2, code bug.  Populating a tree with one file via the constructor (which
delegates to `add`) and then listing the root directory does not return
`["a.txt"]`: `add` hands the whole entries array to the variadic
`Directory.addChild`, so the root's child list contains the raw array, and
mapping `getName()` over the children raises a `TypeError`. -/
theorem readdir_root_typeError :
    VirtualEntries.init "/cwd" (some [Node.file "a.txt" (JSVal.strv "x")])
      = .ok ⟨[("/cwd", Node.dir "/cwd" [Node.arrv [Node.file "a.txt" (JSVal.strv "x")]]),
              ("/cwd/a.txt", Node.file "a.txt" (JSVal.strv "x"))],
             [("/cwd/a.txt", Node.file "a.txt" (JSVal.strv "x"))], "/cwd"⟩ ∧
    Filesystem.readdirSync
      ⟨[("/cwd", Node.dir "/cwd" [Node.arrv [Node.file "a.txt" (JSVal.strv "x")]]),
        ("/cwd/a.txt", Node.file "a.txt" (JSVal.strv "x"))],
       [("/cwd/a.txt", Node.file "a.txt" (JSVal.strv "x"))], "/cwd"⟩ "/cwd"
      = .error .typeError := by
  constructor
  · simp [VirtualEntries.init, VirtualEntries.add, VirtualEntries.attach,
          VirtualEntries._addList, VirtualEntries._add, Node.getName?, Node.addChild?,
          insertFW, mapHas, mapGet, mapSet, normSep, normSepChar]
    rfl
  · rfl

/-- C3, code bug.  `resetSpies` assigns the `readdirSync` property twice — the
second closure takes `(path, cb)` — and never assigns a `readdir` property.
So after construction there is no `readdir` method at all, and `readdirSync`
holds the callback-taking form; the other four operations do get both a
synchronous and a callback form. -/
theorem readdir_method_missing :
    methodSlot "readdir" = none ∧
    methodSlot "readdirSync" = some ⟨"readdirSync", true⟩ ∧
    methodSlot "statSync" = some ⟨"statSync", false⟩ ∧
    methodSlot "stat" = some ⟨"stat", true⟩ ∧
    methodSlot "realpathSync" = some ⟨"realpathSync", false⟩ ∧
    methodSlot "realpath" = some ⟨"realpath", true⟩ ∧
    methodSlot "readFileSync" = some ⟨"readFileSync", false⟩ ∧
    methodSlot "readFile" = some ⟨"readFile", true⟩ ∧
    methodSlot "writeFileSync" = some ⟨"writeFileSync", false⟩ ∧
    methodSlot "writeFile" = some ⟨"writeFile", true⟩ :=
  ⟨rfl, rfl, rfl, rfl, rfl, rfl, rfl, rfl, rfl, rfl⟩

/-- C4, counterexample.  Adding two distinct files named `a` in succession:
the main Index keeps the first file, but the files-only Index ends up holding
the second file — later insertions are not skipped there, they overwrite.
The final conjunct exhibits the disagreement between the two mappings at the
shared path. -/
theorem files_index_last_wins_cex :
    veFix.add [Node.file "a" (JSVal.strv "1")]
      = .ok ⟨[("/cwd", Node.dir "/cwd" [Node.arrv [Node.file "a" (JSVal.strv "1")]]),
              ("/cwd/a", Node.file "a" (JSVal.strv "1"))],
             [("/cwd/a", Node.file "a" (JSVal.strv "1"))], "/cwd"⟩ ∧
    VirtualEntries.add
      ⟨[("/cwd", Node.dir "/cwd" [Node.arrv [Node.file "a" (JSVal.strv "1")]]),
        ("/cwd/a", Node.file "a" (JSVal.strv "1"))],
       [("/cwd/a", Node.file "a" (JSVal.strv "1"))], "/cwd"⟩
      [Node.file "a" (JSVal.strv "2")]
      = .ok ⟨[("/cwd", Node.dir "/cwd" [Node.arrv [Node.file "a" (JSVal.strv "1")],
                                        Node.arrv [Node.file "a" (JSVal.strv "2")]]),
              ("/cwd/a", Node.file "a" (JSVal.strv "1"))],
             [("/cwd/a", Node.file "a" (JSVal.strv "2"))], "/cwd"⟩ ∧
    mapGet [("/cwd", Node.dir "/cwd" [Node.arrv [Node.file "a" (JSVal.strv "1")],
                                      Node.arrv [Node.file "a" (JSVal.strv "2")]]),
            ("/cwd/a", Node.file "a" (JSVal.strv "1"))] "/cwd/a"
      = some (Node.file "a" (JSVal.strv "1")) ∧
    mapGet [("/cwd/a", Node.file "a" (JSVal.strv "2"))] "/cwd/a"
      = some (Node.file "a" (JSVal.strv "2")) ∧
    ((mapGet [("/cwd/a", Node.file "a" (JSVal.strv "2"))] "/cwd/a").bind
        Node.getContent?).bind JSVal.asString?
      ≠ ((mapGet [("/cwd", Node.dir "/cwd" [Node.arrv [Node.file "a" (JSVal.strv "1")],
                                            Node.arrv [Node.file "a" (JSVal.strv "2")]]),
                  ("/cwd/a", Node.file "a" (JSVal.strv "1"))] "/cwd/a").bind
        Node.getContent?).bind JSVal.asString? := by
  have h1 : resolvePath "/cwd" "a" = "/cwd/a" := rfl
  refine ⟨?_, ?_, rfl, rfl, by decide⟩
  · simp [VirtualEntries.add, VirtualEntries.attach, VirtualEntries._addList,
          VirtualEntries._add, Node.getName?, Node.addChild?,
          insertFW, mapHas, mapGet, mapSet, veFix, h1]
  · simp [VirtualEntries.add, VirtualEntries.attach, VirtualEntries._addList,
          VirtualEntries._add, Node.getName?, Node.addChild?,
          insertFW, mapHas, mapGet, mapSet, h1]

/-- C4, amended.  When `_add` indexes a File under a path: in the main Index
the first inserted entry is kept (insertion is skipped when the key is
present), while the files-only Index is assigned unconditionally, so the
latest File inserted at the path wins there. -/
theorem index_first_wins_files_last_wins (root name nm : String) (c : JSVal) (en fi : EMap) :
    ∃ en' fi', VirtualEntries._add root name (Node.file nm c) en fi = .ok (en', fi') ∧
      mapGet en' name = some ((mapGet en name).getD (Node.file nm c)) ∧
      mapGet fi' name = some (Node.file nm c) := by
  refine ⟨insertFW en name (Node.file nm c), mapSet fi name (Node.file nm c),
    by simp [VirtualEntries._add], ?_, mapGet_mapSet_self fi name _⟩
  rw [mapGet_insertFW]
  cases hm : mapGet en name with
  | none => simp [ofirst]
  | some v => simp [ofirst]

/-- C5, counterexample.  `realpath` does not normalize backslash separators:
resolving `a\b` and `a/b` against the same root yields different absolute
paths, so the claim that every path-taking operation (realpath included)
normalizes backslashes before resolution is false. -/
theorem realpath_no_backslash_normalization_cex :
    Filesystem.realpathSync veFix "a\\b" = "/cwd/a\\b" ∧
    Filesystem.realpathSync veFix "a/b" = "/cwd/a/b" ∧
    ("/cwd/a\\b" : String) ≠ "/cwd/a/b" :=
  ⟨rfl, rfl, by decide⟩

/-- C5, amended.  The lookup operations do normalize backslashes: `hasEntry`
and `getEntry` (the resolution used by readFile, writeFile, readdir and the
stat object) give the same result on a name and on its backslash-normalized
form — but `realpath` resolves the raw name (see the counterexample). -/
theorem lookups_normalize_backslashes (ve : VirtualEntries) (name : String) :
    ve.hasEntry name = ve.hasEntry (normSep name) ∧
    ve.getEntry name = ve.getEntry (normSep name) := by
  constructor
  · simp [VirtualEntries.hasEntry, normSep_idem]
  · simp [VirtualEntries.getEntry, normSep_idem]

/-- C6.  For every path that resolves to a File entry in the Index and every
string X, `writeFile(p, X)` succeeds and a subsequent `readFile(p)` returns
exactly X: the write stores the string raw via `setContent` and the read
returns the stored content as is (encoding arguments are ignored). -/
theorem write_read_roundtrip (ve : VirtualEntries) (p nm : String) (c0 : JSVal)
    (X : String) (enc1 enc2 : JSVal)
    (h : mapGet ve.entries (resolvePath ve.root (normSep p)) = some (Node.file nm c0)) :
    ∃ ve', Filesystem.writeFileSync ve p (JSVal.strv X) enc1 = .ok ve' ∧
      Filesystem.readFileSync ve' p enc2 = .ok (JSVal.strv X) := by
  have hge : ve.getEntry p = .ok (Node.file nm c0) := getEntry_of_mapGet ve p _ h
  refine ⟨⟨mapSet ve.entries (resolvePath ve.root (normSep p)) (Node.file nm (JSVal.strv X)),
           ve.files, ve.root⟩, ?_, ?_⟩
  · simp [Filesystem.writeFileSync, hge, Node.isFile?, Node.setContent?]
  · have hge2 : VirtualEntries.getEntry
        ⟨mapSet ve.entries (resolvePath ve.root (normSep p)) (Node.file nm (JSVal.strv X)),
         ve.files, ve.root⟩ p = .ok (Node.file nm (JSVal.strv X)) := by
      apply getEntry_of_mapGet
      exact mapGet_mapSet_self ve.entries (resolvePath ve.root (normSep p)) _
    simp [Filesystem.readFileSync, hge2, Node.isFile?, Node.getContent?]

/-- C6, witness for `write_read_roundtrip`: overwrite the file `a` holding
`old` with `new` and read it back. -/
theorem write_read_roundtrip_witness :
    ∃ ve', Filesystem.writeFileSync
        ⟨[("/cwd", Node.dir "/cwd" []), ("/cwd/a", Node.file "a" (JSVal.strv "old"))],
         [("/cwd/a", Node.file "a" (JSVal.strv "old"))], "/cwd"⟩
        "a" (JSVal.strv "new") JSVal.undef = .ok ve' ∧
      Filesystem.readFileSync ve' "a" JSVal.undef = .ok (JSVal.strv "new") :=
  write_read_roundtrip
    ⟨[("/cwd", Node.dir "/cwd" []), ("/cwd/a", Node.file "a" (JSVal.strv "old"))],
     [("/cwd/a", Node.file "a" (JSVal.strv "old"))], "/cwd"⟩
    "a" "a" (JSVal.strv "old") "new" JSVal.undef JSVal.undef rfl

/-- C7.  File content coercion happens exactly once, at construction: a
plain-object argument is stored as its JSON serialization, an omitted
argument (`undefined`) is stored as the empty string, a string argument is
stored verbatim; `setContent` always stores its argument raw — in particular
it stores a plain object unserialized, never re-applying the JSON coercion. -/
theorem content_coercion_once :
    (∀ (n : String) (fs : List (String × JSVal)),
        createFile n (.objv fs) = Node.file n (.strv (jsonObjString fs))) ∧
    (∀ n : String, createFile n .undef = Node.file n (.strv "")) ∧
    (∀ (n s : String), createFile n (.strv s) = Node.file n (.strv s)) ∧
    (∀ (n : String) (c0 c : JSVal),
        (Node.file n c0).setContent? c = some (Node.file n c)) ∧
    (∀ (n : String) (c0 : JSVal) (fs : List (String × JSVal)),
        (Node.file n c0).setContent? (.objv fs) = some (Node.file n (.objv fs))) := by
  refine ⟨fun n fs => rfl, fun n => rfl, ?_, fun n c0 c => rfl, fun n c0 fs => rfl⟩
  intro n s
  by_cases h : s = ""
  · subst h; rfl
  · have ht : truthy (JSVal.strv s) = true := by simp [truthy, h]
    simp [createFile, File.createContent, ht]

/-- C8.  `realpath` is pure, deterministic and idempotent: its result depends
only on the root (which `add` and `writeFile` never change, so mutations
between two calls cannot alter it), the callback form passes the same value
the synchronous form returns, applying it to its own output returns the
output unchanged, and — being a total function into `String` rather than
`Except` — it never fails, existence of the path notwithstanding. -/
theorem realpath_pure_idempotent (ve : VirtualEntries) (name : String) :
    Filesystem.realpathSync ve (Filesystem.realpathSync ve name)
      = Filesystem.realpathSync ve name ∧
    Filesystem.realpath ve name = Filesystem.realpathSync ve name ∧
    (∀ ve2 : VirtualEntries, ve2.root = ve.root →
        Filesystem.realpathSync ve2 name = Filesystem.realpathSync ve name) ∧
    (∀ (es : List Node) (ve2 : VirtualEntries), ve.add es = .ok ve2 →
        Filesystem.realpathSync ve2 name = Filesystem.realpathSync ve name) ∧
    (∀ (p : String) (c enc : JSVal) (ve3 : VirtualEntries),
        Filesystem.writeFileSync ve p c enc = .ok ve3 →
        Filesystem.realpathSync ve3 name = Filesystem.realpathSync ve name) := by
  refine ⟨resolvePath_idem ve.root name, rfl, ?_, ?_, ?_⟩
  · intro ve2 h
    show resolvePath ve2.root name = resolvePath ve.root name
    rw [h]
  · intro es ve2 h
    show resolvePath ve2.root name = resolvePath ve.root name
    rw [add_ok_root ve es ve2 h]
  · intro p c enc ve3 h
    show resolvePath ve3.root name = resolvePath ve.root name
    rw [writeFileSync_ok_root ve p c enc ve3 h]

/-- C8, witness for `realpath_pure_idempotent`: idempotence at a concrete
input with a backslash, and invariance of `realpath` under a concrete `add`
mutation. -/
theorem realpath_pure_idempotent_witness :
    Filesystem.realpathSync veFix (Filesystem.realpathSync veFix "a\\b")
      = Filesystem.realpathSync veFix "a\\b" ∧
    Filesystem.realpathSync
      ⟨[("/cwd", Node.dir "/cwd" [Node.arrv [Node.file "a" (JSVal.strv "1")]]),
        ("/cwd/a", Node.file "a" (JSVal.strv "1"))],
       [("/cwd/a", Node.file "a" (JSVal.strv "1"))], "/cwd"⟩ "a\\b"
      = Filesystem.realpathSync veFix "a\\b" :=
  ⟨(realpath_pure_idempotent veFix "a\\b").1,
   (realpath_pure_idempotent veFix "a\\b").2.2.2.1 [Node.file "a" (JSVal.strv "1")] _
     (by have h1 : resolvePath "/cwd" "a" = "/cwd/a" := rfl
         simp [VirtualEntries.add, VirtualEntries.attach, VirtualEntries._addList,
               VirtualEntries._add, Node.getName?, Node.addChild?,
               insertFW, mapHas, mapGet, mapSet, veFix, h1])⟩

/-- C10.  Constructing a File whose content argument is present but falsy
and not a plain object (`0`, `false`, `null`, the empty string — and also the
omitted-argument value `undefined`) stores the empty string, so `content()`
returns the empty string for each of them, not the value passed. -/
theorem falsy_content_becomes_empty (name : String) (c : JSVal) (h : truthy c = false) :
    (createFile name c).getContent? = some (JSVal.strv "") := by
  cases c <;> simp_all [createFile, File.createContent, Node.getContent?, truthy]

/-- C10, witness for `falsy_content_becomes_empty` at the concrete falsy
non-object contents 0, false, null and the empty string. -/
theorem falsy_content_becomes_empty_witness :
    (createFile "f" (JSVal.numv 0)).getContent? = some (JSVal.strv "") ∧
    (createFile "f" (JSVal.boolv false)).getContent? = some (JSVal.strv "") ∧
    (createFile "f" JSVal.nullv).getContent? = some (JSVal.strv "") ∧
    (createFile "f" (JSVal.strv "")).getContent? = some (JSVal.strv "") :=
  ⟨falsy_content_becomes_empty "f" (JSVal.numv 0) rfl,
   falsy_content_becomes_empty "f" (JSVal.boolv false) rfl,
   falsy_content_becomes_empty "f" JSVal.nullv rfl,
   falsy_content_becomes_empty "f" (JSVal.strv "") rfl⟩

/-- C9, counterexample.  `add` indexes entries without normalizing backslashes
but `exists`/`get` normalize before resolving: a file named `a\b` is stored
under the key `/cwd/a\b`, yet `hasEntry` on that very path returns false and
`getEntry` raises Not-Found (looking up `/cwd/a/b`), so the claim fails for
entries whose names contain backslashes. -/
theorem add_backslash_name_unreachable_cex :
    veFix.add [Node.file "a\\b" (JSVal.strv "x")]
      = .ok ⟨[("/cwd", Node.dir "/cwd" [Node.arrv [Node.file "a\\b" (JSVal.strv "x")]]),
              ("/cwd/a\\b", Node.file "a\\b" (JSVal.strv "x"))],
             [("/cwd/a\\b", Node.file "a\\b" (JSVal.strv "x"))], "/cwd"⟩ ∧
    walkAdd "/cwd" [Node.file "a\\b" (JSVal.strv "x")]
      = [("/cwd/a\\b", Node.file "a\\b" (JSVal.strv "x"))] ∧
    mapGet [("/cwd", Node.dir "/cwd" [Node.arrv [Node.file "a\\b" (JSVal.strv "x")]]),
            ("/cwd/a\\b", Node.file "a\\b" (JSVal.strv "x"))] "/cwd/a\\b"
      = some (Node.file "a\\b" (JSVal.strv "x")) ∧
    VirtualEntries.hasEntry
      ⟨[("/cwd", Node.dir "/cwd" [Node.arrv [Node.file "a\\b" (JSVal.strv "x")]]),
        ("/cwd/a\\b", Node.file "a\\b" (JSVal.strv "x"))],
       [("/cwd/a\\b", Node.file "a\\b" (JSVal.strv "x"))], "/cwd"⟩ "/cwd/a\\b" = false ∧
    VirtualEntries.getEntry
      ⟨[("/cwd", Node.dir "/cwd" [Node.arrv [Node.file "a\\b" (JSVal.strv "x")]]),
        ("/cwd/a\\b", Node.file "a\\b" (JSVal.strv "x"))],
       [("/cwd/a\\b", Node.file "a\\b" (JSVal.strv "x"))], "/cwd"⟩ "/cwd/a\\b"
      = .error (.assertionError "ENOENT /cwd/a/b no such file or directory.") := by
  have h1 : resolvePath "/cwd" "a\\b" = "/cwd/a\\b" := rfl
  refine ⟨?_, ?_, rfl, rfl, rfl⟩
  · simp [VirtualEntries.add, VirtualEntries.attach, VirtualEntries._addList,
          VirtualEntries._add, Node.getName?, Node.addChild?,
          insertFW, mapHas, mapGet, mapSet, veFix, h1]
  · simp [walkAdd, walkOne, Node.getName?, h1]

/-- C9, amended.  For a tree whose root path is backslash-free and entries
(all of whose names, recursively, are backslash-free) added via `add`: every
(path, entry) pair of the insertion walk is reachable — `hasEntry` at that
path is true, and `getEntry` returns the entry bound at that path, which is
the pre-existing binding if the path was already occupied, otherwise the
first entry the walk inserted there; in particular, at a freshly occupied
path whose first walk insertion is this entry, `getEntry` returns exactly
this entry. -/
theorem add_entries_exists_get (ve : VirtualEntries) (es : List Node) (en0 : EMap)
    (ve' : VirtualEntries) (p : String) (e : Node)
    (hroot : noBackslash ve.root = true)
    (hg : Node.goodList es = true)
    (hat : ve.attach es = .ok en0)
    (hadd : ve.add es = .ok ve')
    (hmem : (p, e) ∈ walkAdd ve.root es) :
    ve'.hasEntry p = true ∧
    ∃ e0, ve'.getEntry p = .ok e0 ∧
      some e0 = ofirst (mapGet en0 p) (pfind (walkAdd ve.root es) p) ∧
      (mapGet en0 p = none → pfind (walkAdd ve.root es) p = some e → e0 = e) := by
  obtain ⟨ve2, hadd2, hroot2, hchar⟩ := add_spec ve es en0 hat hg
  have hok : Except.ok ve2 = Except.ok ve' := hadd2.symm.trans hadd
  have hveeq : ve2 = ve' := by injection hok
  subst hveeq
  obtain ⟨hpb, x, hpx⟩ := walkAdd_keys ve.root hroot es hg p e hmem
  have hfix : resolvePath ve.root (normSep p) = p := by
    rw [noBackslash_normSep_eq p hpb, hpx, resolvePath_idem]
  have hsome : (mapGet ve2.entries p).isSome = true := by
    rw [hchar p]
    exact ofirst_isSome_right _ _ (pfind_isSome_of_mem _ p e hmem)
  obtain ⟨e0, he0⟩ := Option.isSome_iff_exists.mp hsome
  constructor
  · simp only [VirtualEntries.hasEntry, mapHas]
    rw [hroot2, hfix]
    exact hsome
  · refine ⟨e0, ?_, ?_, ?_⟩
    · apply getEntry_of_mapGet
      rw [hroot2, hfix]
      exact he0
    · rw [← he0]
      exact hchar p
    · intro h1 h2
      have h3 := hchar p
      rw [he0, h1, h2] at h3
      simp [ofirst] at h3
      exact h3

/-- C9, witness for `add_entries_exists_get`: a subtree `sub/a.txt` added to
the empty tree; the nested file's walk path is reachable and `getEntry`
returns that very file. -/
theorem add_entries_exists_get_witness :
    VirtualEntries.hasEntry
      ⟨[("/cwd", Node.dir "/cwd" [Node.arrv [Node.dir "sub" [Node.file "a.txt" (JSVal.strv "hi")]]]),
        ("/cwd/sub", Node.dir "sub" [Node.file "a.txt" (JSVal.strv "hi")]),
        ("/cwd/sub/a.txt", Node.file "a.txt" (JSVal.strv "hi"))],
       [("/cwd/sub/a.txt", Node.file "a.txt" (JSVal.strv "hi"))], "/cwd"⟩
      "/cwd/sub/a.txt" = true ∧
    ∃ e0, VirtualEntries.getEntry
        ⟨[("/cwd", Node.dir "/cwd" [Node.arrv [Node.dir "sub" [Node.file "a.txt" (JSVal.strv "hi")]]]),
          ("/cwd/sub", Node.dir "sub" [Node.file "a.txt" (JSVal.strv "hi")]),
          ("/cwd/sub/a.txt", Node.file "a.txt" (JSVal.strv "hi"))],
         [("/cwd/sub/a.txt", Node.file "a.txt" (JSVal.strv "hi"))], "/cwd"⟩
        "/cwd/sub/a.txt" = .ok e0 ∧
      some e0 = ofirst
        (mapGet [("/cwd", Node.dir "/cwd" [Node.arrv [Node.dir "sub" [Node.file "a.txt" (JSVal.strv "hi")]]])]
          "/cwd/sub/a.txt")
        (pfind (walkAdd "/cwd" [Node.dir "sub" [Node.file "a.txt" (JSVal.strv "hi")]])
          "/cwd/sub/a.txt") ∧
      (mapGet [("/cwd", Node.dir "/cwd" [Node.arrv [Node.dir "sub" [Node.file "a.txt" (JSVal.strv "hi")]]])]
          "/cwd/sub/a.txt" = none →
        pfind (walkAdd "/cwd" [Node.dir "sub" [Node.file "a.txt" (JSVal.strv "hi")]])
          "/cwd/sub/a.txt" = some (Node.file "a.txt" (JSVal.strv "hi")) →
        e0 = Node.file "a.txt" (JSVal.strv "hi")) :=
  add_entries_exists_get veFix
    [Node.dir "sub" [Node.file "a.txt" (JSVal.strv "hi")]]
    [("/cwd", Node.dir "/cwd" [Node.arrv [Node.dir "sub" [Node.file "a.txt" (JSVal.strv "hi")]]])]
    ⟨[("/cwd", Node.dir "/cwd" [Node.arrv [Node.dir "sub" [Node.file "a.txt" (JSVal.strv "hi")]]]),
      ("/cwd/sub", Node.dir "sub" [Node.file "a.txt" (JSVal.strv "hi")]),
      ("/cwd/sub/a.txt", Node.file "a.txt" (JSVal.strv "hi"))],
     [("/cwd/sub/a.txt", Node.file "a.txt" (JSVal.strv "hi"))], "/cwd"⟩
    "/cwd/sub/a.txt" (Node.file "a.txt" (JSVal.strv "hi"))
    rfl rfl rfl
    (by have h1 : resolvePath "/cwd" "sub" = "/cwd/sub" := rfl
        have h2 : resolvePath "/cwd" "/cwd/sub/a.txt" = "/cwd/sub/a.txt" := rfl
        simp [VirtualEntries.add, VirtualEntries.attach, VirtualEntries._addList,
              VirtualEntries._add, VirtualEntries._addChildren, Node.getName?,
              Node.addChild?, insertFW, mapHas, mapGet, mapSet, veFix, h1, h2])
    (by have h1 : resolvePath "/cwd" "sub" = "/cwd/sub" := rfl
        have h2 : resolvePath "/cwd" "/cwd/sub/a.txt" = "/cwd/sub/a.txt" := rfl
        have hw : walkAdd veFix.root [Node.dir "sub" [Node.file "a.txt" (JSVal.strv "hi")]]
            = [("/cwd/sub", Node.dir "sub" [Node.file "a.txt" (JSVal.strv "hi")]),
               ("/cwd/sub/a.txt", Node.file "a.txt" (JSVal.strv "hi"))] := by
          simp [walkAdd, walkOne, walkChildren, Node.getName?, veFix, h1, h2]
        rw [hw]
        exact List.mem_cons_of_mem _ (List.mem_cons_self _ _))
